import Mathlib

/-!
Shallow embedding of `find_duplicate_files.py` (duplicate-files-finder).

Modelling conventions:
* A filesystem is a partial map from path strings to entries; `none` means
  `os.stat` / `open` raise `OSError` for that path.
* `Except Unit` models Python exception propagation (`.error ()` = an
  uncaught `OSError`); functions that cannot raise still return `.ok`.
* File contents are byte lists (`List Nat`).
* `md5(...).hexdigest()` is modelled as an injective fingerprint of the
  content (the content itself); no claim below depends on collisions.
  Its Python truthiness: a hexdigest is a 32-character string, never empty,
  hence always truthy; only the `None` returned on `OSError` is falsy.
  This is captured by the key type `Option (List Nat)` with truthiness
  `Option.isSome`.
-/

namespace DuplicateFilesFinder

/-- Constant `BUFSIZE = 8 * 1024`, the chunk size of the comparison loop. -/
def BUFSIZE : Nat := 8 * 1024

/-- The part of the `os.stat` result the program looks at: whether
`S_IFMT(st_mode) == S_IFREG` (regular file), and `st_size`. -/
structure FileStat where
  isRegular : Bool
  size : Nat
deriving DecidableEq

/-- One filesystem entry: its stat data, its content bytes, and whether
opening/reading it succeeds (`readOk = false` models an `OSError` raised by
`open`/`read`). -/
structure FSEntry where
  stat : FileStat
  content : List Nat
  readOk : Bool
deriving DecidableEq

/-- A filesystem state: `none` means `os.stat` (and `open`) raise `OSError`
for that path. -/
abbrev FS := String → Option FSEntry

/-- Model of `os.path.getsize`: returns `st_size`, raises `OSError` when stat fails.
(No exception handler here — `group_files` calls it bare.) -/
def getsize (fs : FS) (p : String) : Except Unit Nat :=
  match fs p with
  | none => .error ()
  | some e => .ok e.stat.size

/-- Model of `groups.setdefault(criterion, []).append(filename)`: insertion-ordered
dict as an association list; appends to the entry with the given key, or
adds a new `(k, [x])` entry at the end. -/
def addToGroups {α κ : Type} [DecidableEq κ] :
    List (κ × List α) → κ → α → List (κ × List α)
  | [], k, x => [(k, [x])]
  | (k', grp) :: rest, k, x =>
    if k' = k then (k', grp ++ [x]) :: rest
    else (k', grp) :: addToGroups rest k x

/-- The loop body of `group_files`: for each filename compute
`criterion = func(filename)` (an exception propagates), and append the item
to the group of its key only `if criterion:` (Python truthiness, given by
`truthy`). -/
def group_files_aux {α κ : Type} [DecidableEq κ] (func : α → Except Unit κ)
    (truthy : κ → Bool) :
    List α → List (κ × List α) → Except Unit (List (κ × List α))
  | [], acc => .ok acc
  | x :: xs, acc =>
    match func x with
    | .error e => .error e
    | .ok criterion =>
      group_files_aux func truthy xs
        (if truthy criterion then addToGroups acc criterion x else acc)

/-- Model of `group_files(file_path_names, func)`: build the criterion dict, then
return `[group for group in groups.values() if len(group) > 1]`. -/
def group_files {α κ : Type} [DecidableEq κ] (file_path_names : List α)
    (func : α → Except Unit κ) (truthy : κ → Bool) :
    Except Unit (List (List α)) :=
  (group_files_aux func truthy file_path_names []).map
    (fun groups => (groups.map Prod.snd).filter (fun group => decide (1 < group.length)))

/-- Python truthiness of an `int` criterion: nonzero. -/
def size_truthy (n : Nat) : Bool := n != 0

/-- Model of `group_files_by_size = group_files(file_path_names, getsize)`. -/
def group_files_by_size (fs : FS) (file_path_names : List String) :
    Except Unit (List (List String)) :=
  group_files file_path_names (getsize fs) size_truthy

/-- Digest `md5(file.read()).hexdigest()` modelled as an injective fingerprint of
the whole content. -/
def md5_hexdigest (content : List Nat) : List Nat := content

/-- Model of `get_file_checksum`: returns the digest of the file content, or `None`
when `open`/`read` raise `OSError` (the `except OSError: return None`). -/
def get_file_checksum (fs : FS) (p : String) : Option (List Nat) :=
  match fs p with
  | none => none
  | some e => if e.readOk then some (md5_hexdigest e.content) else none

/-- Python truthiness of the `get_file_checksum` result: `None` is falsy, a
hexdigest string (always 32 characters, never empty) is truthy. -/
def checksum_truthy (c : Option (List Nat)) : Bool := c.isSome

/-- Model of `group_files_by_checksum = group_files(file_path_names, get_file_checksum)`;
the key function never raises (it catches `OSError` itself). -/
def group_files_by_checksum (fs : FS) (file_path_names : List String) :
    Except Unit (List (List String)) :=
  group_files file_path_names (fun p => .ok (get_file_checksum fs p)) checksum_truthy

/-- The `for group in group_files_by_size(...): groups.extend(group_files_by_checksum(group))`
loop of `find_duplicate_files`. -/
def find_duplicate_files_loop (fs : FS) :
    List (List String) → Except Unit (List (List String))
  | [] => .ok []
  | group :: rest => do
    let sub ← group_files_by_checksum fs group
    let others ← find_duplicate_files_loop fs rest
    return sub ++ others

/-- Model of `find_duplicate_files`: size groups first, then checksum groups within
each size group, flattened. -/
def find_duplicate_files (fs : FS) (file_path_names : List String) :
    Except Unit (List (List String)) := do
  let sizeGroups ← group_files_by_size fs file_path_names
  find_duplicate_files_loop fs sizeGroups

/-- The `while True` loop of `_do_compare`: read a chunk of `BUFSIZE` bytes
from each file; `if b1 != b2: return False`; `if not b1: return True`;
otherwise keep reading. -/
def do_compare_chunks (b1 b2 : List Nat) : Bool :=
  if b1.take BUFSIZE ≠ b2.take BUFSIZE then false
  else if h : b1.take BUFSIZE = [] then true
  else do_compare_chunks (b1.drop BUFSIZE) (b2.drop BUFSIZE)
termination_by b1.length
decreasing_by
  simp only [List.length_drop]
  have hb : b1 ≠ [] := by
    intro hb
    exact h (by simp [hb])
  have h1 : 0 < b1.length := List.length_pos.mpr hb
  have h2 : 0 < BUFSIZE := by decide
  omega

/-- Model of `_do_compare(file1, file2)`: open both files and run the chunk loop; any
`OSError` raised by `open` or `read` is caught and yields `False`. -/
def do_compare (fs : FS) (file1 file2 : String) : Bool :=
  match fs file1, fs file2 with
  | some e1, some e2 =>
    if e1.readOk && e2.readOk then do_compare_chunks e1.content e2.content
    else false
  | _, _ => false

/-- Model of `compare_files(f1, f2)`: stat both paths (an `OSError` from `stat`
propagates — there is no handler around the `_sig(stat(...))` calls), return
`False` if either is not a regular file or the sizes differ, else run
`_do_compare`. -/
def compare_files (fs : FS) (f1 f2 : String) : Except Unit Bool :=
  match fs f1, fs f2 with
  | some e1, some e2 =>
    if !e1.stat.isRegular || !e2.stat.isRegular then .ok false
    else if e1.stat.size ≠ e2.stat.size then .ok false
    else .ok (do_compare fs f1 f2)
  | _, _ => .error ()

/-- The inner `for filename in file_path_names[1:]` loop of
`find_duplicate_files_by_comparing`: collect, in order, the remaining paths
that `compare_files` reports equal to `current` (an exception from
`compare_files` propagates). -/
def collect_duplicates (fs : FS) (current : String) :
    List String → Except Unit (List String)
  | [] => .ok []
  | f :: rest => do
    let b ← compare_files fs current f
    let more ← collect_duplicates fs current rest
    return if b then f :: more else more

/-- Model of `find_duplicate_files_by_comparing`: pop the first path as pivot, group
it with every remaining path that compares equal, drop the whole group from
the working list, emit the group when it has at least 2 members, repeat. -/
def find_duplicate_files_by_comparing (fs : FS) :
    List String → Except Unit (List (List String))
  | [] => .ok []
  | current :: rest => do
    let dups ← collect_duplicates fs current rest
    let group_duplicate_files := current :: dups
    let remaining := (current :: rest).filter
      (fun e => !group_duplicate_files.contains e)
    let others ← find_duplicate_files_by_comparing fs remaining
    return if 1 < group_duplicate_files.length then
      group_duplicate_files :: others
    else others
termination_by l => l.length
decreasing_by
all_goals
  simp only [List.filter_cons, List.contains_cons, beq_self_eq_true,
    Bool.true_or, Bool.not_true, Bool.false_eq_true, if_false, List.length_cons]
  exact Nat.lt_succ_of_le (List.length_filter_le _ _)

/-- A directory tree as `os.walk` sees it: every entry carries its
`os.path.islink` flag. The target of a symlink is irrelevant to the program —
links are dropped before any content access — so targets are not modelled. -/
inductive FSTree where
  | file (name : String) (link : Bool)
  | dir (name : String) (link : Bool) (children : List FSTree)

/-- Model of `os.path.join(root, name)` on a POSIX filesystem. -/
def joinPath (root name : String) : String := root ++ "/" ++ name

/-- The filenames part of one `os.walk` triple: `(join(root, f), islink)` for
each file entry of the directory, in order. -/
def walkFilesHere (root : String) : List FSTree → List (String × Bool)
  | [] => []
  | .file n l :: rest => (joinPath root n, l) :: walkFilesHere root rest
  | .dir _ _ _ :: rest => walkFilesHere root rest

/-- The recursive descent of `os.walk` (with `followlinks=False`, its
default): subdirectories are visited in order, but a symlinked directory is
listed without being entered. -/
def walkSubdirs (root : String) : List FSTree → List (String × Bool)
  | [] => []
  | .file _ _ :: rest => walkSubdirs root rest
  | .dir n l cs :: rest =>
    (if l then []
     else walkFilesHere (joinPath root n) cs ++ walkSubdirs (joinPath root n) cs)
    ++ walkSubdirs root rest

/-- All `(path, islink)` pairs yielded for files by
`[join(root, f) for root, _, files in walk(...) for f in files]`. -/
def walkTree (root : String) (entries : List FSTree) : List (String × Bool) :=
  walkFilesHere root entries ++ walkSubdirs root entries

/-- Model of `scan_files(path)`: the walked file paths with
`filter(lambda x: not islink(x), ...)` applied. The `islink` flag is the one
carried with each collected path. -/
def scan_files (root : String) (entries : List FSTree) : List String :=
  ((walkTree root entries).filter (fun pr => !pr.2)).map Prod.fst

/-- A filesystem is well formed when, for every regular file, `st_size` is the
length of its content. -/
def WellFormed (fs : FS) : Prop :=
  ∀ p e, fs p = some e → e.stat.isRegular = true → e.stat.size = e.content.length

/-- Paths `f` and `g` name existing, regular, readable files with byte-identical
content. -/
def SameContentRegular (fs : FS) (f g : String) : Prop :=
  ∃ ef eg, fs f = some ef ∧ fs g = some eg ∧
    ef.stat.isRegular = true ∧ eg.stat.isRegular = true ∧
    ef.readOk = true ∧ eg.readOk = true ∧ ef.content = eg.content

/-- How many of the returned groups contain both `f` and `g`. -/
def countBoth (gs : List (List String)) (f g : String) : Nat :=
  gs.countP (fun grp => grp.contains f && grp.contains g)

/-- A zero-length regular readable file. -/
def emptyEntry : FSEntry := ⟨⟨true, 0⟩, [], true⟩

/-- A one-byte regular readable file with content `[1]`. -/
def oneByteEntry : FSEntry := ⟨⟨true, 1⟩, [1], true⟩

/-- A two-byte regular readable file with content `[2, 3]`. -/
def twoByteEntry : FSEntry := ⟨⟨true, 2⟩, [2, 3], true⟩

/-- A filesystem holding exactly two zero-length files `a` and `b`. -/
def fsTwoEmpty : FS := fun p =>
  if p = "a" then some emptyEntry
  else if p = "b" then some emptyEntry
  else none

/-- A filesystem holding two identical one-byte files `a` and `b` and one
two-byte file `c`. -/
def fsTwoOnes : FS := fun p =>
  if p = "a" then some oneByteEntry
  else if p = "b" then some oneByteEntry
  else if p = "c" then some twoByteEntry
  else none

/-- A filesystem where `a` and `b` exist but `gone` does not (stat raises). -/
def fsWithGone : FS := fun p =>
  if p = "a" then some oneByteEntry
  else if p = "b" then some oneByteEntry
  else none

/-- A filesystem with two identical one-byte files `a`, `b` and two
zero-length files `e1`, `e2`. -/
def fsMixed : FS := fun p =>
  if p = "a" then some oneByteEntry
  else if p = "b" then some oneByteEntry
  else if p = "e1" then some emptyEntry
  else if p = "e2" then some emptyEntry
  else none

/-- A small directory tree: two regular files, one file symlink, and one
symlinked directory containing a regular file. -/
def demoEntries : List FSTree :=
  [FSTree.file "a" false, FSTree.file "b" false, FSTree.file "link" true,
   FSTree.dir "sub" true [FSTree.file "c" false]]

/-- Holds when the criterion of `y` is exactly `k` (and computing it does not raise). -/
def keyMatches {α κ : Type} [DecidableEq κ] (func : α → Except Unit κ)
    (k : κ) (y : α) : Bool :=
  match func y with
  | .ok k' => decide (k' = k)
  | .error _ => false

/-- The sublist of `l` whose members have criterion `k`. -/
def filterKey {α κ : Type} [DecidableEq κ] (func : α → Except Unit κ)
    (l : List α) (k : κ) : List α :=
  l.filter (keyMatches func k)

/-- Invariant of the `group_files` loop: after processing `processed`, the
dict holds, for each truthy key seen so far (in first-seen order, no key
twice), exactly the processed items with that criterion, in input order. -/
def GoodAcc {α κ : Type} [DecidableEq κ] (func : α → Except Unit κ)
    (truthy : κ → Bool) (processed : List α)
    (acc : List (κ × List α)) (keys : List κ) : Prop :=
  keys.Nodup ∧
  acc = keys.map (fun k => (k, filterKey func processed k)) ∧
  (∀ k ∈ keys, truthy k = true) ∧
  (∀ x ∈ processed, ∀ k, func x = Except.ok k → truthy k = true → k ∈ keys)

/-! ## Helper lemmas -/

/-- The chunk-comparison loop decides content equality: it returns `false` at
the first differing chunk and `true` when both files end simultaneously. -/
theorem do_compare_chunks_eq_decide (b1 b2 : List Nat) :
    do_compare_chunks b1 b2 = decide (b1 = b2) := by
  generalize hn : b1.length = n
  induction n using Nat.strong_induction_on generalizing b1 b2 with
  | _ n ih =>
  subst hn
  rw [do_compare_chunks]
  by_cases h1 : b1.take BUFSIZE = b2.take BUFSIZE
  · rw [if_neg (by simp [h1])]
    by_cases h2 : b1.take BUFSIZE = []
    · rw [dif_pos h2]
      have hB : BUFSIZE ≠ 0 := by decide
      have hb1 : b1 = [] := by
        rcases List.take_eq_nil_iff.mp h2 with h | h
        · exact absurd h hB
        · exact h
      have hb2 : b2 = [] := by
        rcases List.take_eq_nil_iff.mp (h1 ▸ h2) with h | h
        · exact absurd h hB
        · exact h
      subst hb1; subst hb2; simp
    · rw [dif_neg h2]
      have hb1 : b1 ≠ [] := by
        intro hb; exact h2 (by simp [hb])
      have hlt : (b1.drop BUFSIZE).length < b1.length := by
        simp only [List.length_drop]
        have hp : 0 < b1.length := List.length_pos.mpr hb1
        have hq : 0 < BUFSIZE := by decide
        omega
      rw [ih _ hlt _ _ rfl]
      rw [decide_eq_decide]
      constructor
      · intro h
        calc b1 = b1.take BUFSIZE ++ b1.drop BUFSIZE := (List.take_append_drop _ _).symm
          _ = b2.take BUFSIZE ++ b2.drop BUFSIZE := by rw [h1, h]
          _ = b2 := List.take_append_drop _ _
      · intro h; rw [h]
  · rw [if_pos (by simpa using h1)]
    symm
    simp only [decide_eq_false_iff_not]
    intro hc
    exact h1 (by rw [hc])

section GroupFilesSpec

variable {α κ : Type} [DecidableEq κ]

theorem keyMatches_iff (func : α → Except Unit κ) (k : κ) (y : α) :
    keyMatches func k y = true ↔ func y = Except.ok k := by
  unfold keyMatches
  cases hy : func y with
  | ok k' => simp
  | error e => simp

theorem addToGroups_mem (F : κ → List α) (x : α) (k : κ) :
    ∀ keys : List κ, keys.Nodup → k ∈ keys →
      addToGroups (keys.map fun k' => (k', F k')) k x =
        keys.map (fun k' => (k', if k' = k then F k' ++ [x] else F k')) := by
  intro keys
  induction keys with
  | nil => intro _ h; exact absurd h (List.not_mem_nil k)
  | cons k0 rest ih =>
    intro hnd hmem
    simp only [List.map_cons, addToGroups]
    by_cases hk : k0 = k
    · rw [if_pos hk]
      subst hk
      have hnotin : k0 ∉ rest := (List.nodup_cons.mp hnd).1
      rw [if_pos rfl]
      congr 1
      apply List.map_congr_left
      intro a ha
      have : a ≠ k0 := fun h => hnotin (h ▸ ha)
      rw [if_neg this]
    · rw [if_neg hk, if_neg hk]
      have hmem' : k ∈ rest := by
        rcases List.mem_cons.mp hmem with h | h
        · exact absurd h.symm hk
        · exact h
      rw [ih (List.nodup_cons.mp hnd).2 hmem']

theorem addToGroups_new (F : κ → List α) (x : α) (k : κ) :
    ∀ keys : List κ, k ∉ keys →
      addToGroups (keys.map fun k' => (k', F k')) k x =
        (keys.map fun k' => (k', F k')) ++ [(k, [x])] := by
  intro keys
  induction keys with
  | nil => intro _; simp [addToGroups]
  | cons k0 rest ih =>
    intro hnotin
    have hk : k0 ≠ k := fun h => hnotin (h ▸ List.mem_cons_self k0 rest)
    simp only [List.map_cons, addToGroups, if_neg hk, List.cons_append]
    rw [ih (fun h => hnotin (List.mem_cons_of_mem k0 h))]

theorem filterKey_snoc (func : α → Except Unit κ) (l : List α) (x : α) (k : κ) :
    filterKey func (l ++ [x]) k =
      filterKey func l k ++ (if keyMatches func k x then [x] else []) := by
  unfold filterKey
  rw [List.filter_append]
  congr 1
  simp only [List.filter]
  cases keyMatches func k x <;> simp

theorem group_files_aux_spec (func : α → Except Unit κ) (truthy : κ → Bool) :
    ∀ (l processed : List α) (acc : List (κ × List α)) (keys : List κ),
      GoodAcc func truthy processed acc keys →
      ∀ out, group_files_aux func truthy l acc = Except.ok out →
        ∃ keys', GoodAcc func truthy (processed ++ l) out keys' := by
  intro l
  induction l with
  | nil =>
    intro processed acc keys hgood out hout
    simp only [group_files_aux] at hout
    cases hout
    exact ⟨keys, by simpa using hgood⟩
  | cons x xs ih =>
    intro processed acc keys hgood out hout
    simp only [group_files_aux] at hout
    cases hfx : func x with
    | error e => rw [hfx] at hout; cases hout
    | ok k =>
      rw [hfx] at hout
      obtain ⟨hnd, hacc, htr, hcomp⟩ := hgood
      have hstep : ∃ keys₁, GoodAcc func truthy (processed ++ [x])
          (if truthy k then addToGroups acc k x else acc) keys₁ := by
        by_cases htk : truthy k = true
        · rw [if_pos htk]
          by_cases hkin : k ∈ keys
          · refine ⟨keys, hnd, ?_, htr, ?_⟩
            · rw [hacc, addToGroups_mem _ _ _ _ hnd hkin]
              apply List.map_congr_left
              intro a ha
              rw [filterKey_snoc]
              by_cases hak : a = k
              · subst hak
                rw [if_pos rfl, if_pos ((keyMatches_iff func a x).mpr hfx)]
              · rw [if_neg hak]
                have : keyMatches func a x = false := by
                  cases hm : keyMatches func a x
                  · rfl
                  · have := (keyMatches_iff func a x).mp hm
                    rw [hfx] at this
                    cases this
                    exact absurd rfl hak
                rw [this, if_neg (by simp), List.append_nil]
            · intro y hy k' hk' htk'
              rcases List.mem_append.mp hy with h | h
              · exact hcomp y h k' hk' htk'
              · have : y = x := by simpa using h
                subst this
                rw [hfx] at hk'
                cases hk'
                exact hkin
          · refine ⟨keys ++ [k], ?_, ?_, ?_, ?_⟩
            · rw [List.nodup_append]
              refine ⟨hnd, List.nodup_singleton k, ?_⟩
              intro a ha hb
              have hak : a = k := by simpa using hb
              subst hak
              exact hkin ha
            · rw [hacc, addToGroups_new _ _ _ _ hkin, List.map_append]
              congr 1
              · apply List.map_congr_left
                intro a ha
                rw [filterKey_snoc]
                have hak : a ≠ k := fun h => hkin (h ▸ ha)
                have : keyMatches func a x = false := by
                  cases hm : keyMatches func a x
                  · rfl
                  · have := (keyMatches_iff func a x).mp hm
                    rw [hfx] at this
                    cases this
                    exact absurd rfl hak
                rw [this, if_neg (by simp), List.append_nil]
              · simp only [List.map_cons, List.map_nil]
                congr 2
                have hempty : filterKey func processed k = [] := by
                  apply List.filter_eq_nil.mpr
                  intro y hy hmat
                  exact hkin (hcomp y hy k ((keyMatches_iff func k y).mp hmat) htk)
                rw [filterKey_snoc, hempty, if_pos ((keyMatches_iff func k x).mpr hfx)]
                simp
            · intro a ha
              rcases List.mem_append.mp ha with h | h
              · exact htr a h
              · have : a = k := by simpa using h
                exact this ▸ htk
            · intro y hy k' hk' htk'
              rcases List.mem_append.mp hy with h | h
              · exact List.mem_append_left _ (hcomp y h k' hk' htk')
              · have : y = x := by simpa using h
                subst this
                rw [hfx] at hk'
                cases hk'
                exact List.mem_append_right _ (List.mem_singleton_self _)
        · rw [if_neg htk]
          refine ⟨keys, hnd, ?_, htr, ?_⟩
          · rw [hacc]
            apply List.map_congr_left
            intro a ha
            rw [filterKey_snoc]
            have hak : a ≠ k := by
              intro h
              exact htk (h ▸ htr a ha)
            have : keyMatches func a x = false := by
              cases hm : keyMatches func a x
              · rfl
              · have := (keyMatches_iff func a x).mp hm
                rw [hfx] at this
                cases this
                exact absurd rfl hak
            rw [this, if_neg (by simp), List.append_nil]
          · intro y hy k' hk' htk'
            rcases List.mem_append.mp hy with h | h
            · exact hcomp y h k' hk' htk'
            · have : y = x := by simpa using h
              subst this
              rw [hfx] at hk'
              cases hk'
              exact absurd htk' htk
      obtain ⟨keys₁, hg₁⟩ := hstep
      obtain ⟨keys', hg'⟩ := ih (processed ++ [x]) _ keys₁ hg₁ out hout
      rw [List.append_assoc, List.singleton_append] at hg'
      exact ⟨keys', hg'⟩

/-- Characterization of `group_files`: the returned groups are, for some
duplicate-free list of truthy criteria covering every truthy-keyed input,
the input sublists sharing each criterion, filtered to size ≥ 2. -/
theorem group_files_spec (l : List α) (func : α → Except Unit κ)
    (truthy : κ → Bool) (gs : List (List α))
    (h : group_files l func truthy = Except.ok gs) :
    ∃ keys : List κ, keys.Nodup ∧ (∀ k ∈ keys, truthy k = true) ∧
      (∀ x ∈ l, ∀ k, func x = Except.ok k → truthy k = true → k ∈ keys) ∧
      gs = (keys.map (filterKey func l)).filter (fun g => decide (1 < g.length)) := by
  unfold group_files at h
  cases haux : group_files_aux func truthy l [] with
  | error e => rw [haux] at h; cases h
  | ok out =>
    rw [haux] at h
    simp only [Except.map] at h
    cases h
    have hgood : GoodAcc func truthy [] ([] : List (κ × List α)) [] := by
      refine ⟨List.nodup_nil, by simp, by simp, by simp⟩
    obtain ⟨keys, hnd, hacc, htr, hcomp⟩ :=
      group_files_aux_spec func truthy l [] [] [] hgood out haux
    refine ⟨keys, hnd, htr, hcomp, ?_⟩
    rw [hacc, List.map_map]
    rfl

/-- A list containing two distinct elements has length at least 2. -/
theorem one_lt_length_of_two_mem {β : Type} {l : List β} {a b : β}
    (ha : a ∈ l) (hb : b ∈ l) (hne : a ≠ b) : 1 < l.length := by
  match l with
  | [] => cases ha
  | [x] =>
    have h1 : a = x := by simpa using ha
    have h2 : b = x := by simpa using hb
    exact absurd (h1.trans h2.symm) hne
  | x :: y :: rest => simp only [List.length_cons]; omega

/-- Every group returned by `group_files` has at least 2 members. -/
theorem group_files_length_ge_two {l : List α} {func : α → Except Unit κ}
    {truthy : κ → Bool} {gs : List (List α)}
    (h : group_files l func truthy = Except.ok gs) :
    ∀ grp ∈ gs, 1 < grp.length := by
  obtain ⟨keys, _, _, _, hgs⟩ := group_files_spec l func truthy gs h
  subst hgs
  intro grp hgrp
  simpa using (List.mem_filter.mp hgrp).2

/-- Every member of a returned group comes from the input and has the
(truthy) criterion of the group. -/
theorem group_files_mem_key {l : List α} {func : α → Except Unit κ}
    {truthy : κ → Bool} {gs : List (List α)} {grp : List α} {x : α}
    (h : group_files l func truthy = Except.ok gs)
    (hgrp : grp ∈ gs) (hx : x ∈ grp) :
    ∃ k, func x = Except.ok k ∧ truthy k = true ∧ grp = filterKey func l k ∧ x ∈ l := by
  obtain ⟨keys, hnd, htr, hcomp, hgs⟩ := group_files_spec l func truthy gs h
  subst hgs
  obtain ⟨hmem, _⟩ := List.mem_filter.mp hgrp
  obtain ⟨k, hk, rfl⟩ := List.mem_map.mp hmem
  have hx' := hx
  simp only [filterKey] at hx'
  obtain ⟨hxl, hmat⟩ := List.mem_filter.mp hx'
  exact ⟨k, (keyMatches_iff func k x).mp hmat, htr k hk, rfl, hxl⟩

/-- Distinct returned groups share no member. -/
theorem group_files_pairwise_disjoint {l : List α} {func : α → Except Unit κ}
    {truthy : κ → Bool} {gs : List (List α)}
    (h : group_files l func truthy = Except.ok gs) :
    gs.Pairwise (fun g1 g2 => ∀ x, x ∈ g1 → x ∉ g2) := by
  obtain ⟨keys, hnd, htr, hcomp, hgs⟩ := group_files_spec l func truthy gs h
  subst hgs
  apply List.Pairwise.filter
  rw [List.pairwise_map]
  refine List.Pairwise.imp ?_ hnd
  intro k1 k2 hne x hx1 hx2
  simp only [filterKey] at hx1 hx2
  have h1 := (keyMatches_iff func k1 x).mp (List.mem_filter.mp hx1).2
  have h2 := (keyMatches_iff func k2 x).mp (List.mem_filter.mp hx2).2
  rw [h1] at h2
  cases h2
  exact hne rfl

/-- Two distinct inputs sharing a truthy criterion end up together in some
returned group. -/
theorem group_files_exists_group {l : List α} {func : α → Except Unit κ}
    {truthy : κ → Bool} {gs : List (List α)} {f g : α} {k : κ}
    (h : group_files l func truthy = Except.ok gs)
    (hf : func f = Except.ok k) (hg : func g = Except.ok k)
    (ht : truthy k = true) (hfl : f ∈ l) (hgl : g ∈ l) (hne : f ≠ g) :
    ∃ grp ∈ gs, f ∈ grp ∧ g ∈ grp := by
  obtain ⟨keys, hnd, htr, hcomp, hgs⟩ := group_files_spec l func truthy gs h
  subst hgs
  have hkin : k ∈ keys := hcomp f hfl k hf ht
  have hfm : f ∈ filterKey func l k := by
    simp only [filterKey]
    exact List.mem_filter.mpr ⟨hfl, (keyMatches_iff func k f).mpr hf⟩
  have hgm : g ∈ filterKey func l k := by
    simp only [filterKey]
    exact List.mem_filter.mpr ⟨hgl, (keyMatches_iff func k g).mpr hg⟩
  refine ⟨filterKey func l k, ?_, hfm, hgm⟩
  apply List.mem_filter.mpr
  refine ⟨List.mem_map.mpr ⟨k, hkin, rfl⟩, ?_⟩
  simpa using one_lt_length_of_two_mem hfm hgm hne

/-- Function `group_files` raises no exception when the key function raises none. -/
theorem group_files_ok (l : List α) (func : α → Except Unit κ) (truthy : κ → Bool)
    (hfunc : ∀ x ∈ l, ∃ k, func x = Except.ok k) :
    ∃ gs, group_files l func truthy = Except.ok gs := by
  suffices h : ∀ acc, ∃ out, group_files_aux func truthy l acc = Except.ok out by
    obtain ⟨out, hout⟩ := h []
    refine ⟨(out.map Prod.snd).filter (fun group => decide (1 < group.length)), ?_⟩
    unfold group_files
    rw [hout]
    rfl
  induction l with
  | nil => intro acc; exact ⟨acc, rfl⟩
  | cons x xs ih =>
    intro acc
    obtain ⟨k, hk⟩ := hfunc x (List.mem_cons_self x xs)
    have hxs : ∀ y ∈ xs, ∃ k, func y = Except.ok k :=
      fun y hy => hfunc y (List.mem_cons_of_mem x hy)
    obtain ⟨out, hout⟩ := ih hxs (if truthy k then addToGroups acc k x else acc)
    refine ⟨out, ?_⟩
    simp only [group_files_aux, hk]
    exact hout

end GroupFilesSpec

/-- In a pairwise-disjoint list of groups, a group containing both `f` and
`g` is counted exactly once. -/
theorem countBoth_eq_one_of_pairwise {gs : List (List String)}
    {grp : List String} {f g : String}
    (hpw : gs.Pairwise fun g1 g2 => ∀ x, x ∈ g1 → x ∉ g2)
    (hgrp : grp ∈ gs) (hf : f ∈ grp) (hg : g ∈ grp) :
    countBoth gs f g = 1 := by
  induction gs with
  | nil => cases hgrp
  | cons h0 t ih =>
    rw [List.pairwise_cons] at hpw
    obtain ⟨hdisj, hpt⟩ := hpw
    unfold countBoth
    rcases List.mem_cons.mp hgrp with rfl | hmem
    · rw [List.countP_cons_of_pos _ _ (by simp [hf, hg])]
      have hzero : t.countP (fun grp => grp.contains f && grp.contains g) = 0 := by
        apply List.countP_eq_zero.mpr
        intro a ha
        have : f ∉ a := hdisj a ha f hf
        simp [this]
      rw [hzero]
    · have hf0 : f ∉ h0 := by
        intro hf0
        exact hdisj grp hmem f hf0 hf
      rw [List.countP_cons_of_neg _ _ (by simp [hf0])]
      exact ih hpt hmem

/-- Reduction of `compare_files` when both stats succeed. -/
theorem compare_files_some_some {fs : FS} {a b : String} {ea eb : FSEntry}
    (ha : fs a = some ea) (hb : fs b = some eb) :
    compare_files fs a b =
      (if (!ea.stat.isRegular || !eb.stat.isRegular) = true then Except.ok false
       else if ea.stat.size ≠ eb.stat.size then Except.ok false
       else Except.ok (do_compare fs a b)) := by
  unfold compare_files
  rw [ha, hb]

/-- Reduction of `do_compare` when both opens are attempted on existing
paths. -/
theorem do_compare_some_some {fs : FS} {a b : String} {ea eb : FSEntry}
    (ha : fs a = some ea) (hb : fs b = some eb) :
    do_compare fs a b =
      (if ea.readOk && eb.readOk then do_compare_chunks ea.content eb.content
       else false) := by
  unfold do_compare
  rw [ha, hb]

/-- Function `compare_files` reports `True` only for paths whose stat sizes agree. -/
theorem compare_files_true_same_size {fs : FS} {a b : String}
    (h : compare_files fs a b = Except.ok true) :
    ∃ ea eb, fs a = some ea ∧ fs b = some eb ∧ ea.stat.size = eb.stat.size := by
  cases ha : fs a with
  | none =>
    unfold compare_files at h
    rw [ha] at h
    cases hb : fs b <;> rw [hb] at h <;> cases h
  | some ea =>
    cases hb : fs b with
    | none =>
      unfold compare_files at h
      rw [ha, hb] at h
      cases h
    | some eb =>
      rw [compare_files_some_some ha hb] at h
      refine ⟨ea, eb, rfl, rfl, ?_⟩
      by_cases hreg : (!ea.stat.isRegular || !eb.stat.isRegular) = true
      · rw [if_pos hreg] at h; cases h
      · rw [if_neg hreg] at h
        by_cases hsz : ea.stat.size = eb.stat.size
        · exact hsz
        · rw [if_pos hsz] at h; cases h

/-- Function `compare_files` raises exactly when stat raises for either path;
otherwise it returns some boolean. -/
theorem compare_files_error_iff {fs : FS} {a b : String} :
    compare_files fs a b = Except.error () ↔ (fs a = none ∨ fs b = none) := by
  cases ha : fs a with
  | none =>
    cases hb : fs b with
    | none => unfold compare_files; rw [ha, hb]; simp
    | some eb => unfold compare_files; rw [ha, hb]; simp
  | some ea =>
    cases hb : fs b with
    | none => unfold compare_files; rw [ha, hb]; simp
    | some eb =>
      rw [compare_files_some_some ha hb]
      simp only [ha, hb, reduceCtorEq, or_self, iff_false]
      intro h
      split at h
      · simp at h
      · split at h <;> simp at h

/-- When both paths stat fine, `compare_files` returns some boolean. -/
theorem compare_files_isOk {fs : FS} {a b : String} {ea eb : FSEntry}
    (ha : fs a = some ea) (hb : fs b = some eb) :
    ∃ v, compare_files fs a b = Except.ok v := by
  cases hcf : compare_files fs a b with
  | ok v => exact ⟨v, rfl⟩
  | error e =>
    cases e
    rcases compare_files_error_iff.mp hcf with h | h
    · rw [ha] at h; cases h
    · rw [hb] at h; cases h

/-- Two regular, readable, byte-identical files of equal stat size compare
equal. -/
theorem compare_files_pair_true {fs : FS} {f g : String} {ef eg : FSEntry}
    (hf : fs f = some ef) (hg : fs g = some eg)
    (hrf : ef.stat.isRegular = true) (hrg : eg.stat.isRegular = true)
    (hof : ef.readOk = true) (hog : eg.readOk = true)
    (hsz : ef.stat.size = eg.stat.size) (hc : ef.content = eg.content) :
    compare_files fs f g = Except.ok true := by
  rw [compare_files_some_some hf hg, if_neg (by simp [hrf, hrg]),
    if_neg (by simp [hsz]), do_compare_some_some hf hg,
    if_pos (by simp [hof, hog]), do_compare_chunks_eq_decide]
  simp [hc]

/-- Replacing one side of a comparison by a stat- and content-identical file
does not change the verdict of `compare_files`. -/
theorem compare_files_congr_right {fs : FS} {f g : String} {ef eg : FSEntry}
    (hf : fs f = some ef) (hg : fs g = some eg)
    (hreg : ef.stat.isRegular = eg.stat.isRegular)
    (hok : ef.readOk = eg.readOk)
    (hsz : ef.stat.size = eg.stat.size) (hc : ef.content = eg.content)
    (c : String) :
    compare_files fs c f = compare_files fs c g := by
  cases hcc : fs c with
  | none =>
    unfold compare_files
    rw [hcc, hf, hg]
  | some ec =>
    have hdc : do_compare fs c f = do_compare fs c g := by
      rw [do_compare_some_some hcc hf, do_compare_some_some hcc hg, hok, hc]
    rw [compare_files_some_some hcc hf, compare_files_some_some hcc hg,
      hreg, hsz, hdc]

/-- Everything `collect_duplicates` returns comes from its input and
compared equal to the pivot. -/
theorem collect_duplicates_sound {fs : FS} {current : String} :
    ∀ {rest dups : List String},
      collect_duplicates fs current rest = Except.ok dups →
      ∀ d ∈ dups, d ∈ rest ∧ compare_files fs current d = Except.ok true := by
  intro rest
  induction rest with
  | nil =>
    intro dups h d hd
    simp only [collect_duplicates] at h
    cases h
    cases hd
  | cons y ys ih =>
    intro dups h d hd
    simp only [collect_duplicates] at h
    cases hcf : compare_files fs current y with
    | error e => rw [hcf] at h; cases h
    | ok b =>
      rw [hcf] at h
      cases hcd : collect_duplicates fs current ys with
      | error e =>
        rw [hcd] at h
        simp [Bind.bind, Except.bind] at h
      | ok more =>
        rw [hcd] at h
        simp only [Bind.bind, Except.bind, Pure.pure, Except.pure, Except.ok.injEq] at h
        subst h
        cases b with
        | true =>
          rcases List.mem_cons.mp (by simpa using hd) with rfl | hmem
          · exact ⟨List.mem_cons_self _ _, hcf⟩
          · obtain ⟨h1, h2⟩ := ih hcd d hmem
            exact ⟨List.mem_cons_of_mem _ h1, h2⟩
        | false =>
          obtain ⟨h1, h2⟩ := ih hcd d (by simpa using hd)
          exact ⟨List.mem_cons_of_mem _ h1, h2⟩

/-- Every remaining path that compares equal to the pivot is collected. -/
theorem collect_duplicates_complete {fs : FS} {current : String} :
    ∀ {rest dups : List String},
      collect_duplicates fs current rest = Except.ok dups →
      ∀ y ∈ rest, compare_files fs current y = Except.ok true → y ∈ dups := by
  intro rest
  induction rest with
  | nil => intro dups _ y hy; cases hy
  | cons z zs ih =>
    intro dups h y hy hcmp
    simp only [collect_duplicates] at h
    cases hcf : compare_files fs current z with
    | error e => rw [hcf] at h; cases h
    | ok b =>
      rw [hcf] at h
      cases hcd : collect_duplicates fs current zs with
      | error e =>
        rw [hcd] at h
        simp [Bind.bind, Except.bind] at h
      | ok more =>
        rw [hcd] at h
        simp only [Bind.bind, Except.bind, Pure.pure, Except.pure, Except.ok.injEq] at h
        subst h
        rcases List.mem_cons.mp hy with rfl | hmem
        · rw [hcf] at hcmp
          cases hcmp
          simp
        · have := ih hcd y hmem hcmp
          cases b <;> simp [this]

/-- Function `collect_duplicates` raises no exception when every comparison returns. -/
theorem collect_duplicates_ok {fs : FS} {current : String} :
    ∀ {rest : List String},
      (∀ y ∈ rest, ∃ b, compare_files fs current y = Except.ok b) →
      ∃ dups, collect_duplicates fs current rest = Except.ok dups := by
  intro rest
  induction rest with
  | nil => intro _; exact ⟨[], rfl⟩
  | cons y ys ih =>
    intro hall
    obtain ⟨b, hb⟩ := hall y (List.mem_cons_self y ys)
    obtain ⟨more, hmore⟩ := ih (fun z hz => hall z (List.mem_cons_of_mem y hz))
    refine ⟨if b then y :: more else more, ?_⟩
    simp only [collect_duplicates, hb, hmore]
    rfl

/-- One-step inversion of the `find_duplicate_files_by_comparing` loop. -/
theorem fdfbc_step {fs : FS} {current : String} {rest : List String}
    {gs : List (List String)}
    (h : find_duplicate_files_by_comparing fs (current :: rest) = Except.ok gs) :
    ∃ dups others,
      collect_duplicates fs current rest = Except.ok dups ∧
      find_duplicate_files_by_comparing fs
        ((current :: rest).filter (fun e => !(current :: dups).contains e)) =
        Except.ok others ∧
      gs = if 1 < (current :: dups).length then (current :: dups) :: others
           else others := by
  rw [find_duplicate_files_by_comparing] at h
  cases hcd : collect_duplicates fs current rest with
  | error e =>
    rw [hcd] at h
    simp [Bind.bind, Except.bind] at h
  | ok dups =>
    rw [hcd] at h
    simp only [Bind.bind, Except.bind] at h
    cases hrec : find_duplicate_files_by_comparing fs
        ((current :: rest).filter (fun e => !(current :: dups).contains e)) with
    | error e =>
      rw [hrec] at h
      simp [Pure.pure, Except.pure] at h
    | ok others =>
      rw [hrec] at h
      simp only [Pure.pure, Except.pure, Except.ok.injEq] at h
      exact ⟨dups, others, rfl, hrec, h.symm⟩

/-- The shrunken working list is strictly shorter: the pivot is removed. -/
theorem fdfbc_remaining_length (current : String) (rest dups : List String) :
    ((current :: rest).filter (fun e => !(current :: dups).contains e)).length ≤
      rest.length := by
  rw [List.filter_cons, if_neg (by simp)]
  exact List.length_filter_le _ rest

/-- If the collection loop finished, every comparison it ran returned. -/
theorem collect_duplicates_all_ok {fs : FS} {current : String} :
    ∀ {rest dups : List String},
      collect_duplicates fs current rest = Except.ok dups →
      ∀ y ∈ rest, ∃ b, compare_files fs current y = Except.ok b := by
  intro rest
  induction rest with
  | nil => intro dups _ y hy; cases hy
  | cons z zs ih =>
    intro dups h y hy
    simp only [collect_duplicates] at h
    cases hcf : compare_files fs current z with
    | error e => rw [hcf] at h; cases h
    | ok b =>
      rw [hcf] at h
      cases hcd : collect_duplicates fs current zs with
      | error e =>
        rw [hcd] at h
        simp [Bind.bind, Except.bind] at h
      | ok more =>
        rcases List.mem_cons.mp hy with rfl | hmem
        · exact ⟨b, hcf⟩
        · exact ih hcd y hmem

/-- Structural invariants of the comparison pipeline: groups have ≥ 2
members drawn from the input, are pairwise disjoint, and each consists of a
pivot plus paths that compared equal to it. -/
theorem fdfbc_props {fs : FS} :
    ∀ (n : Nat) (l : List String) (gs : List (List String)), l.length ≤ n →
      find_duplicate_files_by_comparing fs l = Except.ok gs →
      (∀ grp ∈ gs, 1 < grp.length) ∧
      (∀ grp ∈ gs, ∀ x ∈ grp, x ∈ l) ∧
      gs.Pairwise (fun g1 g2 => ∀ x, x ∈ g1 → x ∉ g2) ∧
      (∀ grp ∈ gs, ∃ c dups, grp = c :: dups ∧
        ∀ d ∈ dups, compare_files fs c d = Except.ok true) := by
  intro n
  induction n with
  | zero =>
    intro l gs hlen h
    have hl : l = [] := List.length_eq_zero.mp (Nat.le_zero.mp hlen)
    subst hl
    simp only [find_duplicate_files_by_comparing] at h
    cases h
    exact ⟨by simp, by simp, List.Pairwise.nil, by simp⟩
  | succ n ih =>
    intro l gs hlen h
    cases l with
    | nil =>
      simp only [find_duplicate_files_by_comparing] at h
      cases h
      exact ⟨by simp, by simp, List.Pairwise.nil, by simp⟩
    | cons current rest =>
      obtain ⟨dups, others, hcd, hrec, hgs⟩ := fdfbc_step h
      have hremlen : ((current :: rest).filter
          (fun e => !(current :: dups).contains e)).length ≤ n := by
        have h1 := fdfbc_remaining_length current rest dups
        have h2 : rest.length ≤ n := by
          simp only [List.length_cons] at hlen
          omega
        omega
      obtain ⟨ihlen, ihsub, ihpw, ihstruct⟩ := ih _ others hremlen hrec
      have hdups := collect_duplicates_sound hcd
      have hgsub : ∀ x ∈ (current :: dups), x ∈ current :: rest := by
        intro x hx
        rcases List.mem_cons.mp hx with rfl | hmem
        · exact List.mem_cons_self _ _
        · exact List.mem_cons_of_mem _ (hdups x hmem).1
      have hremsub : ∀ x, x ∈ (current :: rest).filter
          (fun e => !(current :: dups).contains e) → x ∈ current :: rest :=
        fun x hx => List.mem_of_mem_filter hx
      have hremnot : ∀ x, x ∈ (current :: rest).filter
          (fun e => !(current :: dups).contains e) → x ∉ (current :: dups) := by
        intro x hx
        have := (List.mem_filter.mp hx).2
        simp only [Bool.not_eq_true'] at this
        intro hmem
        rw [List.contains_eq_any_beq] at this
        have : ¬ ∃ y ∈ (current :: dups), x == y := by
          intro ⟨y, hy, hxy⟩
          have := List.any_eq_true.mpr ⟨y, hy, hxy⟩
          simp_all
        exact this ⟨x, hmem, by simp⟩
      cases hif : decide (1 < (current :: dups).length) with
      | true =>
        have hone : 1 < (current :: dups).length := of_decide_eq_true hif
        rw [if_pos hone] at hgs
        subst hgs
        refine ⟨?_, ?_, ?_, ?_⟩
        · intro grp hgrp
          rcases List.mem_cons.mp hgrp with rfl | hmem
          · exact hone
          · exact ihlen grp hmem
        · intro grp hgrp x hx
          rcases List.mem_cons.mp hgrp with rfl | hmem
          · exact hgsub x hx
          · exact hremsub x (ihsub grp hmem x hx)
        · rw [List.pairwise_cons]
          refine ⟨?_, ihpw⟩
          intro grp hgrp x hx hx'
          exact hremnot x (ihsub grp hgrp x hx') hx
        · intro grp hgrp
          rcases List.mem_cons.mp hgrp with rfl | hmem
          · exact ⟨current, dups, rfl, fun d hd => (hdups d hd).2⟩
          · exact ihstruct grp hmem
      | false =>
        have hone : ¬ 1 < (current :: dups).length := of_decide_eq_false hif
        rw [if_neg hone] at hgs
        subst hgs
        refine ⟨ihlen, ?_, ihpw, ihstruct⟩
        intro grp hgrp x hx
        exact hremsub x (ihsub grp hgrp x hx)

/-- The comparison pipeline raises nothing when every listed path stats. -/
theorem fdfbc_ok {fs : FS} :
    ∀ (n : Nat) (l : List String), l.length ≤ n →
      (∀ p ∈ l, (fs p).isSome = true) →
      ∃ gs, find_duplicate_files_by_comparing fs l = Except.ok gs := by
  intro n
  induction n with
  | zero =>
    intro l hlen _
    have hl : l = [] := List.length_eq_zero.mp (Nat.le_zero.mp hlen)
    subst hl
    exact ⟨[], by simp [find_duplicate_files_by_comparing]⟩
  | succ n ih =>
    intro l hlen hall
    cases l with
    | nil => exact ⟨[], by simp [find_duplicate_files_by_comparing]⟩
    | cons current rest =>
      obtain ⟨ec, hec⟩ := Option.isSome_iff_exists.mp
        (hall current (List.mem_cons_self _ _))
      have hcall : ∀ y ∈ rest, ∃ b, compare_files fs current y = Except.ok b := by
        intro y hy
        obtain ⟨ey, hey⟩ := Option.isSome_iff_exists.mp
          (hall y (List.mem_cons_of_mem _ hy))
        exact compare_files_isOk hec hey
      obtain ⟨dups, hcd⟩ := collect_duplicates_ok hcall
      have hremlen : ((current :: rest).filter
          (fun e => !(current :: dups).contains e)).length ≤ n := by
        have h1 := fdfbc_remaining_length current rest dups
        have h2 : rest.length ≤ n := by
          simp only [List.length_cons] at hlen
          omega
        omega
      have hremall : ∀ p ∈ (current :: rest).filter
          (fun e => !(current :: dups).contains e), (fs p).isSome = true :=
        fun p hp => hall p (List.mem_of_mem_filter hp)
      obtain ⟨others, hrec⟩ := ih _ hremlen hremall
      refine ⟨if 1 < (current :: dups).length then (current :: dups) :: others
        else others, ?_⟩
      rw [find_duplicate_files_by_comparing, hcd]
      simp only [Bind.bind, Except.bind]
      rw [hrec]
      rfl

/-- Two distinct, byte-identical, regular, readable files of equal stat size
that are both in the working list end up together in some emitted group. -/
theorem fdfbc_pair_together {fs : FS} {f g : String} {ef eg : FSEntry}
    (hf : fs f = some ef) (hg : fs g = some eg)
    (hrf : ef.stat.isRegular = true) (hrg : eg.stat.isRegular = true)
    (hof : ef.readOk = true) (hog : eg.readOk = true)
    (hsz : ef.stat.size = eg.stat.size) (hc : ef.content = eg.content)
    (hne : f ≠ g) :
    ∀ (n : Nat) (l : List String) (gs : List (List String)), l.length ≤ n →
      f ∈ l → g ∈ l →
      find_duplicate_files_by_comparing fs l = Except.ok gs →
      ∃ grp ∈ gs, f ∈ grp ∧ g ∈ grp := by
  have hcongr : ∀ c, compare_files fs c f = compare_files fs c g :=
    compare_files_congr_right hf hg (hrf.trans hrg.symm) (hof.trans hog.symm) hsz hc
  intro n
  induction n with
  | zero =>
    intro l gs hlen hfl _ _
    have hl : l = [] := List.length_eq_zero.mp (Nat.le_zero.mp hlen)
    subst hl
    cases hfl
  | succ n ih =>
    intro l gs hlen hfl hgl h
    cases l with
    | nil => cases hfl
    | cons current rest =>
      obtain ⟨dups, others, hcd, hrec, hgs⟩ := fdfbc_step h
      have hremlen : ((current :: rest).filter
          (fun e => !(current :: dups).contains e)).length ≤ n := by
        have h1 := fdfbc_remaining_length current rest dups
        have h2 : rest.length ≤ n := by
          simp only [List.length_cons] at hlen
          omega
        omega
      have emitted : ∀ x, x ∈ dups →
          ∃ grp ∈ gs, (current :: dups) = grp := by
        intro x hx
        have hone : 1 < (current :: dups).length := by
          cases dups with
          | nil => cases hx
          | cons d ds => simp only [List.length_cons]; omega
        rw [if_pos hone] at hgs
        subst hgs
        exact ⟨current :: dups, List.mem_cons_self _ _, rfl⟩
      by_cases hcf : current = f
      · subst hcf
        have hgrest : g ∈ rest := by
          rcases List.mem_cons.mp hgl with h' | h'
          · exact absurd h'.symm hne
          · exact h'
        have hcmp : compare_files fs current g = Except.ok true :=
          compare_files_pair_true hf hg hrf hrg hof hog hsz hc
        have hgd : g ∈ dups := collect_duplicates_complete hcd g hgrest hcmp
        obtain ⟨grp, hgrp, hgeq⟩ := emitted g hgd
        exact ⟨grp, hgrp, hgeq ▸ List.mem_cons_self _ _,
          hgeq ▸ List.mem_cons_of_mem _ hgd⟩
      · by_cases hcg : current = g
        · subst hcg
          have hfrest : f ∈ rest := by
            rcases List.mem_cons.mp hfl with h' | h'
            · exact absurd h' hne
            · exact h'
          have hcmp : compare_files fs current f = Except.ok true :=
            compare_files_pair_true hg hf hrg hrf hog hof hsz.symm hc.symm
          have hfd : f ∈ dups := collect_duplicates_complete hcd f hfrest hcmp
          obtain ⟨grp, hgrp, hgeq⟩ := emitted f hfd
          exact ⟨grp, hgrp, hgeq ▸ List.mem_cons_of_mem _ hfd,
            hgeq ▸ List.mem_cons_self _ _⟩
        · have hfrest : f ∈ rest := by
            rcases List.mem_cons.mp hfl with h' | h'
            · exact absurd h'.symm hcf
            · exact h'
          have hgrest : g ∈ rest := by
            rcases List.mem_cons.mp hgl with h' | h'
            · exact absurd h'.symm hcg
            · exact h'
          obtain ⟨b, hb⟩ := collect_duplicates_all_ok hcd f hfrest
          have hbg : compare_files fs current g = Except.ok b :=
            (hcongr current) ▸ hb
          cases b with
          | true =>
            have hfd : f ∈ dups := collect_duplicates_complete hcd f hfrest hb
            have hgd : g ∈ dups := collect_duplicates_complete hcd g hgrest hbg
            obtain ⟨grp, hgrp, hgeq⟩ := emitted f hfd
            exact ⟨grp, hgrp, hgeq ▸ List.mem_cons_of_mem _ hfd,
              hgeq ▸ List.mem_cons_of_mem _ hgd⟩
          | false =>
            have hfng : f ∉ (current :: dups) := by
              intro hmem
              rcases List.mem_cons.mp hmem with h' | h'
              · exact hcf h'.symm
              · have := (collect_duplicates_sound hcd f h').2
                rw [hb] at this
                cases this
            have hgng : g ∉ (current :: dups) := by
              intro hmem
              rcases List.mem_cons.mp hmem with h' | h'
              · exact hcg h'.symm
              · have := (collect_duplicates_sound hcd g h').2
                rw [hbg] at this
                cases this
            have hfr : f ∈ (current :: rest).filter
                (fun e => !(current :: dups).contains e) := by
              apply List.mem_filter.mpr
              refine ⟨hfl, ?_⟩
              simp only [Bool.not_eq_true']
              rw [List.contains_eq_any_beq]
              apply List.any_eq_false.mpr
              intro y hy
              intro hxy
              exact hfng ((eq_of_beq hxy) ▸ hy)
            have hgr : g ∈ (current :: rest).filter
                (fun e => !(current :: dups).contains e) := by
              apply List.mem_filter.mpr
              refine ⟨hgl, ?_⟩
              simp only [Bool.not_eq_true']
              rw [List.contains_eq_any_beq]
              apply List.any_eq_false.mpr
              intro y hy
              intro hxy
              exact hgng ((eq_of_beq hxy) ▸ hy)
            obtain ⟨grp, hgrp, hfi, hgi⟩ := ih _ others hremlen hfr hgr hrec
            refine ⟨grp, ?_, hfi, hgi⟩
            by_cases hone : 1 < (current :: dups).length
            · rw [if_pos hone] at hgs
              subst hgs
              exact List.mem_cons_of_mem _ hgrp
            · rw [if_neg hone] at hgs
              subst hgs
              exact hgrp

/-- The checksum key function never raises, so checksum grouping returns. -/
theorem group_files_by_checksum_ok (fs : FS) (l : List String) :
    ∃ gs, group_files_by_checksum fs l = Except.ok gs :=
  group_files_ok l _ checksum_truthy (fun x _ => ⟨get_file_checksum fs x, rfl⟩)

/-- One-step inversion of the checksum-per-size-group loop. -/
theorem fdf_loop_step {fs : FS} {sg : List String} {rest : List (List String)}
    {gs : List (List String)}
    (h : find_duplicate_files_loop fs (sg :: rest) = Except.ok gs) :
    ∃ sub others, group_files_by_checksum fs sg = Except.ok sub ∧
      find_duplicate_files_loop fs rest = Except.ok others ∧
      gs = sub ++ others := by
  simp only [find_duplicate_files_loop] at h
  cases hsub : group_files_by_checksum fs sg with
  | error e =>
    rw [hsub] at h
    simp [Bind.bind, Except.bind] at h
  | ok sub =>
    rw [hsub] at h
    simp only [Bind.bind, Except.bind] at h
    cases hrest : find_duplicate_files_loop fs rest with
    | error e =>
      rw [hrest] at h
      simp [Pure.pure, Except.pure] at h
    | ok others =>
      rw [hrest] at h
      simp only [Pure.pure, Except.pure, Except.ok.injEq] at h
      exact ⟨sub, others, rfl, rfl, h.symm⟩

/-- Every group produced by the loop is a checksum group of one of the size
groups. -/
theorem fdf_loop_forall {fs : FS} :
    ∀ {sgs : List (List String)} {gs : List (List String)},
      find_duplicate_files_loop fs sgs = Except.ok gs →
      ∀ grp ∈ gs, ∃ sg ∈ sgs, ∃ sub,
        group_files_by_checksum fs sg = Except.ok sub ∧ grp ∈ sub := by
  intro sgs
  induction sgs with
  | nil =>
    intro gs h grp hgrp
    simp only [find_duplicate_files_loop] at h
    cases h
    cases hgrp
  | cons sg rest ih =>
    intro gs h grp hgrp
    obtain ⟨sub, others, hsub, hrest, hgs⟩ := fdf_loop_step h
    subst hgs
    rcases List.mem_append.mp hgrp with hmem | hmem
    · exact ⟨sg, List.mem_cons_self _ _, sub, hsub, hmem⟩
    · obtain ⟨sg', hsg', sub', hsub', hmem'⟩ := ih hrest grp hmem
      exact ⟨sg', List.mem_cons_of_mem _ hsg', sub', hsub', hmem'⟩

/-- Conversely, every checksum group of a listed size group is in the output
of the loop. -/
theorem fdf_loop_exists {fs : FS} :
    ∀ {sgs : List (List String)} {gs : List (List String)},
      find_duplicate_files_loop fs sgs = Except.ok gs →
      ∀ sg ∈ sgs, ∀ {sub grp}, group_files_by_checksum fs sg = Except.ok sub →
        grp ∈ sub → grp ∈ gs := by
  intro sgs
  induction sgs with
  | nil => intro gs _ sg hsg; cases hsg
  | cons sg0 rest ih =>
    intro gs h sg hsg sub grp hsub hgrp
    obtain ⟨sub0, others, hsub0, hrest, hgs⟩ := fdf_loop_step h
    subst hgs
    rcases List.mem_cons.mp hsg with rfl | hmem
    · rw [hsub0] at hsub
      cases hsub
      exact List.mem_append_left _ hgrp
    · exact List.mem_append_right _ (ih hrest sg hmem hsub hgrp)

/-- The loop never raises. -/
theorem fdf_loop_ok (fs : FS) :
    ∀ sgs : List (List String),
      ∃ gs, find_duplicate_files_loop fs sgs = Except.ok gs := by
  intro sgs
  induction sgs with
  | nil => exact ⟨[], rfl⟩
  | cons sg rest ih =>
    obtain ⟨sub, hsub⟩ := group_files_by_checksum_ok fs sg
    obtain ⟨others, hothers⟩ := ih
    refine ⟨sub ++ others, ?_⟩
    simp only [find_duplicate_files_loop, hsub, hothers]
    rfl

/-- If the size groups are pairwise disjoint, so are the final hash-pipeline
groups. -/
theorem fdf_loop_pairwise {fs : FS} :
    ∀ {sgs : List (List String)} {gs : List (List String)},
      find_duplicate_files_loop fs sgs = Except.ok gs →
      sgs.Pairwise (fun g1 g2 => ∀ x, x ∈ g1 → x ∉ g2) →
      gs.Pairwise (fun g1 g2 => ∀ x, x ∈ g1 → x ∉ g2) := by
  intro sgs
  induction sgs with
  | nil =>
    intro gs h _
    simp only [find_duplicate_files_loop] at h
    cases h
    exact List.Pairwise.nil
  | cons sg rest ih =>
    intro gs h hpw
    obtain ⟨sub, others, hsub, hrest, hgs⟩ := fdf_loop_step h
    subst hgs
    rw [List.pairwise_cons] at hpw
    obtain ⟨hdisj, hpwrest⟩ := hpw
    rw [List.pairwise_append]
    refine ⟨group_files_pairwise_disjoint hsub, ih hrest hpwrest, ?_⟩
    intro g1 hg1 g2 hg2 x hx1
    obtain ⟨k1, _, _, _, hx1sg⟩ := group_files_mem_key hsub hg1 hx1
    intro hx2
    obtain ⟨sg', hsg', sub', hsub', hg2'⟩ := fdf_loop_forall hrest g2 hg2
    obtain ⟨k2, _, _, _, hx2sg⟩ := group_files_mem_key hsub' hg2' hx2
    exact hdisj sg' hsg' x hx1sg hx2sg

/-- Inversion of `find_duplicate_files`. -/
theorem fdf_step {fs : FS} {l : List String} {gs : List (List String)}
    (h : find_duplicate_files fs l = Except.ok gs) :
    ∃ sgs, group_files_by_size fs l = Except.ok sgs ∧
      find_duplicate_files_loop fs sgs = Except.ok gs := by
  unfold find_duplicate_files at h
  cases hsgs : group_files_by_size fs l with
  | error e =>
    rw [hsgs] at h
    simp [Bind.bind, Except.bind] at h
  | ok sgs =>
    rw [hsgs] at h
    simp only [Bind.bind, Except.bind] at h
    exact ⟨sgs, rfl, h⟩

/-- The hash pipeline raises nothing when every listed path stats. -/
theorem fdf_ok {fs : FS} {l : List String}
    (hall : ∀ p ∈ l, (fs p).isSome = true) :
    ∃ gs, find_duplicate_files fs l = Except.ok gs := by
  have hfunc : ∀ x ∈ l, ∃ k, getsize fs x = Except.ok k := by
    intro x hx
    obtain ⟨e, he⟩ := Option.isSome_iff_exists.mp (hall x hx)
    exact ⟨e.stat.size, by simp [getsize, he]⟩
  obtain ⟨sgs, hsgs⟩ := group_files_ok l (getsize fs) size_truthy hfunc
  have hsgs' : group_files_by_size fs l = Except.ok sgs := hsgs
  obtain ⟨gs, hgs⟩ := fdf_loop_ok fs sgs
  refine ⟨gs, ?_⟩
  unfold find_duplicate_files
  rw [hsgs']
  simpa [Bind.bind, Except.bind] using hgs

/-- Members of one hash-pipeline group share their stat size. -/
theorem fdf_same_size {fs : FS} {l : List String} {gs : List (List String)}
    {grp : List String} {x y : String}
    (h : find_duplicate_files fs l = Except.ok gs)
    (hgrp : grp ∈ gs) (hx : x ∈ grp) (hy : y ∈ grp) :
    getsize fs x = getsize fs y := by
  obtain ⟨sgs, hsgs, hloop⟩ := fdf_step h
  obtain ⟨sg, hsg, sub, hsub, hgrp'⟩ := fdf_loop_forall hloop grp hgrp
  obtain ⟨_, _, _, _, hxsg⟩ := group_files_mem_key hsub hgrp' hx
  obtain ⟨_, _, _, _, hysg⟩ := group_files_mem_key hsub hgrp' hy
  obtain ⟨kx, hkx, _, hsgeq, _⟩ := group_files_mem_key hsgs hsg hxsg
  obtain ⟨ky, hky, _, hsgeq', _⟩ := group_files_mem_key hsgs hsg hysg
  have hxky : getsize fs x = Except.ok ky := by
    have hxf : x ∈ filterKey (getsize fs) l ky := hsgeq' ▸ hxsg
    simp only [filterKey] at hxf
    exact (keyMatches_iff (getsize fs) ky x).mp (List.mem_filter.mp hxf).2
  rw [hky, ← hxky, hkx]

/-- Hash-pipeline groups are pairwise disjoint. -/
theorem fdf_pairwise {fs : FS} {l : List String} {gs : List (List String)}
    (h : find_duplicate_files fs l = Except.ok gs) :
    gs.Pairwise (fun g1 g2 => ∀ x, x ∈ g1 → x ∉ g2) := by
  obtain ⟨sgs, hsgs, hloop⟩ := fdf_step h
  exact fdf_loop_pairwise hloop (group_files_pairwise_disjoint hsgs)

/-- Distinct byte-identical nonempty regular readable files listed in the
input end up together in some hash-pipeline group. -/
theorem fdf_pair_together {fs : FS} (hwf : WellFormed fs)
    {f g : String} {ef eg : FSEntry} {l : List String} {gs : List (List String)}
    (hf : fs f = some ef) (hg : fs g = some eg)
    (hrf : ef.stat.isRegular = true) (hrg : eg.stat.isRegular = true)
    (hof : ef.readOk = true) (hog : eg.readOk = true)
    (hc : ef.content = eg.content) (hnz : ef.content ≠ [])
    (hne : f ≠ g) (hfl : f ∈ l) (hgl : g ∈ l)
    (h : find_duplicate_files fs l = Except.ok gs) :
    ∃ grp ∈ gs, f ∈ grp ∧ g ∈ grp := by
  obtain ⟨sgs, hsgs, hloop⟩ := fdf_step h
  have hsf : ef.stat.size = ef.content.length := hwf f ef hf hrf
  have hsg' : eg.stat.size = eg.content.length := hwf g eg hg hrg
  have hksize : getsize fs g = Except.ok ef.stat.size := by
    simp [getsize, hg, hsg', ← hc, hsf]
  have htruthy : size_truthy ef.stat.size = true := by
    simp only [size_truthy, hsf]
    simpa using fun hlen => hnz (List.length_eq_zero.mp hlen)
  obtain ⟨sg, hsg, hfsg, hgsg⟩ := group_files_exists_group hsgs
    (by simp [getsize, hf]) hksize htruthy hfl hgl hne
  obtain ⟨sub, hsub⟩ := group_files_by_checksum_ok fs sg
  have hckf : (fun p => Except.ok (get_file_checksum fs p) : String → Except Unit (Option (List Nat))) f =
      Except.ok (some (md5_hexdigest ef.content)) := by
    simp [get_file_checksum, hf, hof]
  have hckg : (fun p => Except.ok (get_file_checksum fs p) : String → Except Unit (Option (List Nat))) g =
      Except.ok (some (md5_hexdigest ef.content)) := by
    simp [get_file_checksum, hg, hog, hc]
  obtain ⟨grp, hgrp, hfgrp, hggrp⟩ := group_files_exists_group hsub
    hckf hckg (by simp [checksum_truthy]) hfsg hgsg hne
  exact ⟨grp, fdf_loop_exists hloop sg hsg hsub hgrp, hfgrp, hggrp⟩

/-- With pairwise-disjoint groups, any path lies in at most one group. -/
theorem countP_contains_le_one_of_pairwise {gs : List (List String)} {x : String}
    (hpw : gs.Pairwise (fun g1 g2 => ∀ y, y ∈ g1 → y ∉ g2)) :
    gs.countP (fun grp => grp.contains x) ≤ 1 := by
  induction gs with
  | nil => simp
  | cons h0 t ih =>
    rw [List.pairwise_cons] at hpw
    obtain ⟨hdisj, hpt⟩ := hpw
    by_cases hx : x ∈ h0
    · rw [List.countP_cons_of_pos _ _ (by simp [hx])]
      have hzero : t.countP (fun grp => grp.contains x) = 0 := by
        apply List.countP_eq_zero.mpr
        intro a ha
        have : x ∉ a := hdisj a ha x hx
        simp [this]
      omega
    · rw [List.countP_cons_of_neg _ _ (by simp [hx])]
      exact ih hpt

/-- A raised key-function exception aborts `group_files` (nothing catches
it). -/
theorem group_files_error {α κ : Type} [DecidableEq κ]
    {func : α → Except Unit κ} {truthy : κ → Bool} :
    ∀ {l : List α}, (∃ p ∈ l, func p = Except.error ()) →
      group_files l func truthy = Except.error () := by
  suffices haux : ∀ (l : List α) (acc : List (κ × List α)),
      (∃ p ∈ l, func p = Except.error ()) →
      group_files_aux func truthy l acc = Except.error () by
    intro l hex
    unfold group_files
    rw [haux l [] hex]
    rfl
  intro l
  induction l with
  | nil => intro acc ⟨p, hp, _⟩; cases hp
  | cons x xs ih =>
    intro acc ⟨p, hp, herr⟩
    simp only [group_files_aux]
    cases hfx : func x with
    | error e => cases e; rfl
    | ok k =>
      rcases List.mem_cons.mp hp with rfl | hmem
      · rw [hfx] at herr; cases herr
      · exact ih _ ⟨p, hmem, herr⟩

/-- When the collected walk paths are distinct, equal paths mean equal
entries. -/
theorem walk_entry_eq_of_fst_eq {l : List (String × Bool)}
    (hnd : (l.map Prod.fst).Nodup) {a b : String × Bool}
    (ha : a ∈ l) (hb : b ∈ l) (hfst : a.1 = b.1) : a = b := by
  induction l with
  | nil => cases ha
  | cons x xs ih =>
    rw [List.map_cons, List.nodup_cons] at hnd
    obtain ⟨hx, hnd'⟩ := hnd
    rcases List.mem_cons.mp ha with rfl | hamem
    · rcases List.mem_cons.mp hb with rfl | hbmem
      · rfl
      · exact absurd (hfst ▸ List.mem_map_of_mem Prod.fst hbmem) hx
    · rcases List.mem_cons.mp hb with rfl | hbmem
      · exact absurd (hfst ▸ List.mem_map_of_mem Prod.fst hamem) hx
      · exact ih hnd' hamem hbmem

/-- Every path reported by `scan_files` was collected with a false `islink`
flag. -/
theorem scan_files_mem {root : String} {entries : List FSTree} {p : String}
    (hp : p ∈ scan_files root entries) :
    ∃ pr ∈ walkTree root entries, pr.1 = p ∧ pr.2 = false := by
  unfold scan_files at hp
  obtain ⟨pr, hpr, hfst⟩ := List.mem_map.mp hp
  obtain ⟨hmem, hflag⟩ := List.mem_filter.mp hpr
  exact ⟨pr, hmem, hfst, by simpa using hflag⟩

/-- A symlinked directory contributes nothing to the walk. -/
theorem walkSubdirs_link_skipped (root n : String) (cs rest : List FSTree) :
    walkSubdirs root (FSTree.dir n true cs :: rest) = walkSubdirs root rest := by
  simp [walkSubdirs]

/-- Items whose criterion is falsy are excluded from every group. -/
theorem falsy_key_excluded {α κ : Type} [DecidableEq κ]
    {l : List α} {func : α → Except Unit κ} {truthy : κ → Bool}
    {gs : List (List α)} {x : α} {k : κ}
    (h : group_files l func truthy = Except.ok gs)
    (hk : func x = Except.ok k) (ht : truthy k = false) :
    ∀ grp ∈ gs, x ∉ grp := by
  intro grp hgrp hx
  obtain ⟨k', hk', ht', _, _⟩ := group_files_mem_key h hgrp hx
  rw [hk] at hk'
  cases hk'
  rw [ht'] at ht
  cases ht

/-! ## Claim theorems -/

/-- C1: the claim says both pipelines put all zero-length files of a tree
into one duplicate group. On a filesystem with exactly two zero-length
regular readable files `a` and `b`, the hash pipeline returns **no** group —
`group_files` tests the criterion with Python truthiness, and a size of `0`
is falsy, so zero-length files are dropped before grouping — while the
comparison pipeline does return the single group `[a, b]`. This contradicts
the spec ("must form one group if ≥ 2 exist"), whose intent the comparison
pipeline and the `group_files` docstring support: the bare
`if criterion:` (instead of a not-`None` test) is the slip. -/
theorem C1_empty_files_divergence :
    find_duplicate_files fsTwoEmpty ["a", "b"] = Except.ok [] ∧
    find_duplicate_files_by_comparing fsTwoEmpty ["a", "b"] =
      Except.ok [["a", "b"]] := by
  constructor
  · rfl
  · simp [find_duplicate_files_by_comparing, collect_duplicates, compare_files,
      fsTwoEmpty, do_compare, emptyEntry, do_compare_chunks_eq_decide,
      Bind.bind, Except.bind, Functor.map, Except.map, Pure.pure, Except.pure]

/-- C2 counterexample: `a` and `b` are distinct regular files with
byte-identical (empty) content, both listed, yet the hash pipeline returns
no group at all, so they do not appear together in exactly one group. -/
theorem C2_counterexample_empty_files :
    SameContentRegular fsTwoEmpty "a" "b" ∧ "a" ≠ "b" ∧
    find_duplicate_files fsTwoEmpty ["a", "b"] = Except.ok [] ∧
    countBoth [] "a" "b" = 0 := by
  refine ⟨⟨emptyEntry, emptyEntry, rfl, rfl, rfl, rfl, rfl, rfl, rfl⟩,
    by decide, rfl, rfl⟩

/-- C2 (amended): for distinct regular readable files with byte-identical
content listed in the input (all listed paths statting, sizes consistent
with contents), the comparison pipeline always puts them together in
exactly one group; the hash pipeline does so provided the shared content is
nonempty (zero-length files are dropped by the size grouping). -/
theorem C2_equal_content_exactly_one_group {fs : FS} {l : List String}
    {f g : String} {ef eg : FSEntry}
    (hwf : WellFormed fs) (hall : ∀ p ∈ l, (fs p).isSome = true)
    (hf : fs f = some ef) (hg : fs g = some eg)
    (hrf : ef.stat.isRegular = true) (hrg : eg.stat.isRegular = true)
    (hof : ef.readOk = true) (hog : eg.readOk = true)
    (hc : ef.content = eg.content) (hne : f ≠ g)
    (hfl : f ∈ l) (hgl : g ∈ l) :
    (ef.content ≠ [] → ∃ gs1, find_duplicate_files fs l = Except.ok gs1 ∧
      countBoth gs1 f g = 1) ∧
    (∃ gs2, find_duplicate_files_by_comparing fs l = Except.ok gs2 ∧
      countBoth gs2 f g = 1) := by
  have hsz : ef.stat.size = eg.stat.size := by
    rw [hwf f ef hf hrf, hwf g eg hg hrg, hc]
  constructor
  · intro hnz
    obtain ⟨gs1, hgs1⟩ := fdf_ok hall
    obtain ⟨grp, hgrp, hfgrp, hggrp⟩ :=
      fdf_pair_together hwf hf hg hrf hrg hof hog hc hnz hne hfl hgl hgs1
    exact ⟨gs1, hgs1,
      countBoth_eq_one_of_pairwise (fdf_pairwise hgs1) hgrp hfgrp hggrp⟩
  · obtain ⟨gs2, hgs2⟩ := fdfbc_ok l.length l (Nat.le_refl _) hall
    obtain ⟨grp, hgrp, hfgrp, hggrp⟩ :=
      fdfbc_pair_together hf hg hrf hrg hof hog hsz hc hne
        l.length l gs2 (Nat.le_refl _) hfl hgl hgs2
    have hpw := (fdfbc_props l.length l gs2 (Nat.le_refl _) hgs2).2.2.1
    exact ⟨gs2, hgs2, countBoth_eq_one_of_pairwise hpw hgrp hfgrp hggrp⟩

/-- C2 witness: on a filesystem with two identical one-byte files `a`, `b`
and a distinct file `c`, both pipelines return groups in which `a` and `b`
are together exactly once. -/
theorem C2_equal_content_witness :
    (∃ gs1, find_duplicate_files fsTwoOnes ["a", "b", "c"] = Except.ok gs1 ∧
      countBoth gs1 "a" "b" = 1) ∧
    (∃ gs2, find_duplicate_files_by_comparing fsTwoOnes ["a", "b", "c"] =
      Except.ok gs2 ∧ countBoth gs2 "a" "b" = 1) := by
  have hwf : WellFormed fsTwoOnes := by
    intro p e hp _
    simp only [fsTwoOnes] at hp
    split at hp
    · cases hp; rfl
    · split at hp
      · cases hp; rfl
      · split at hp
        · cases hp; rfl
        · cases hp
  have h := C2_equal_content_exactly_one_group (l := ["a", "b", "c"])
    (f := "a") (g := "b") hwf (by decide) rfl rfl rfl rfl rfl rfl rfl
    (by decide) (by decide) (by decide)
  exact ⟨h.1 (by decide), h.2⟩

/-- C3 counterexample: the claim says a failing size probe is silently
excluded and grouping proceeds; in fact `group_files` calls `getsize` with
no exception handler, so one missing path makes `group_files_by_size` raise
even though the two remaining files `a`, `b` share a size. -/
theorem C3_counterexample_probe_failure_raises :
    group_files_by_size fsWithGone ["a", "gone", "b"] = Except.error () :=
  group_files_error ⟨"gone", by decide, rfl⟩

/-- C3 (amended): if the size probe fails for any listed path,
`group_files_by_size` propagates the `OSError` instead of excluding the
path; silent exclusion on probe/read failure exists only in the checksum
key function, which catches `OSError` itself. -/
theorem C3_size_probe_failure_raises {fs : FS} {l : List String} {p : String}
    (hp : p ∈ l) (hnone : fs p = none) :
    group_files_by_size fs l = Except.error () ∧
    ∃ gs, group_files_by_checksum fs l = Except.ok gs :=
  ⟨group_files_error ⟨p, hp, by simp [getsize, hnone]⟩,
    group_files_by_checksum_ok fs l⟩

/-- C3 witness: concrete missing path `gone`. -/
theorem C3_size_probe_failure_witness :
    ("gone" ∈ ["a", "gone"] ∧ fsWithGone "gone" = none) ∧
    (group_files_by_size fsWithGone ["a", "gone"] = Except.error () ∧
      ∃ gs, group_files_by_checksum fsWithGone ["a", "gone"] = Except.ok gs) :=
  ⟨⟨by decide, rfl⟩,
    @C3_size_probe_failure_raises fsWithGone ["a", "gone"] "gone" (by decide) rfl⟩

/-- C4 counterexample: the claim says a failing stat makes `compare_files`
return `False`; in fact `stat` is called outside any handler, so the
`OSError` propagates. -/
theorem C4_counterexample_stat_failure_raises :
    compare_files fsWithGone "gone" "a" = Except.error () :=
  compare_files_error_iff.mpr (Or.inl rfl)

/-- C4 (amended): if stat fails for either path, `compare_files` raises
(propagates the `OSError`) rather than returning `False`. -/
theorem C4_stat_failure_raises {fs : FS} {f1 f2 : String}
    (h : fs f1 = none ∨ fs f2 = none) :
    compare_files fs f1 f2 = Except.error () :=
  compare_files_error_iff.mpr h

/-- C4 witness: concrete missing second path. -/
theorem C4_stat_failure_witness :
    fsWithGone "gone" = none ∧
    compare_files fsWithGone "a" "gone" = Except.error () :=
  ⟨rfl, C4_stat_failure_raises (Or.inr rfl)⟩

/-- C5: `compare_files` short-circuits to `False` on differing sizes; on
equal sizes it runs the 8 KiB chunk loop, which decides byte equality of
the contents (`false` at the first differing chunk, `true` when both reads
come back empty simultaneously); a failing open/read yields `False`, not an
error; and the chunk size is `8 * 1024`. -/
theorem C5_compare_files_semantics {fs : FS} {f1 f2 : String} {e1 e2 : FSEntry}
    (h1 : fs f1 = some e1) (h2 : fs f2 = some e2)
    (hr1 : e1.stat.isRegular = true) (hr2 : e2.stat.isRegular = true) :
    BUFSIZE = 8 * 1024 ∧
    (∀ b1 b2 : List Nat, do_compare_chunks b1 b2 = decide (b1 = b2)) ∧
    (e1.stat.size ≠ e2.stat.size → compare_files fs f1 f2 = Except.ok false) ∧
    (e1.readOk = true → e2.readOk = true →
      compare_files fs f1 f2 = Except.ok (decide (e1.content = e2.content)) ∨
      e1.stat.size ≠ e2.stat.size) ∧
    ((e1.readOk = false ∨ e2.readOk = false) →
      compare_files fs f1 f2 = Except.ok false) := by
  refine ⟨rfl, do_compare_chunks_eq_decide, ?_, ?_, ?_⟩
  · intro hsz
    rw [compare_files_some_some h1 h2, if_neg (by simp [hr1, hr2]), if_pos hsz]
  · intro ho1 ho2
    by_cases hsz : e1.stat.size = e2.stat.size
    · left
      rw [compare_files_some_some h1 h2, if_neg (by simp [hr1, hr2]),
        if_neg (by simp [hsz]), do_compare_some_some h1 h2,
        if_pos (by simp [ho1, ho2]), do_compare_chunks_eq_decide]
    · right
      exact hsz
  · intro hro
    by_cases hsz : e1.stat.size = e2.stat.size
    · rw [compare_files_some_some h1 h2, if_neg (by simp [hr1, hr2]),
        if_neg (by simp [hsz]), do_compare_some_some h1 h2, if_neg ?_]
      rcases hro with h | h <;> simp [h]
    · rw [compare_files_some_some h1 h2, if_neg (by simp [hr1, hr2]), if_pos hsz]

/-- C5 witness: concrete regular files `a` (1 byte) and `c` (2 bytes). -/
theorem C5_compare_files_witness :
    compare_files fsTwoOnes "a" "c" = Except.ok false ∧
    compare_files fsTwoOnes "a" "b" = Except.ok true := by
  constructor
  · exact (@C5_compare_files_semantics fsTwoOnes "a" "c" oneByteEntry
      twoByteEntry rfl rfl rfl rfl).2.2.1 (by decide)
  · have h := (@C5_compare_files_semantics fsTwoOnes "a" "b" oneByteEntry
      oneByteEntry rfl rfl rfl rfl).2.2.2.1 rfl rfl
    rcases h with h | h
    · simpa using h
    · exact absurd rfl h

/-- C6: files whose stat sizes differ never share a group, in either
pipeline: the hash pipeline groups by size first, and the comparison
pairwise predicate of the comparison pipeline reports `False` on differing sizes. -/
theorem C6_different_sizes_never_together {fs : FS} {l : List String}
    {f g : String} {ef eg : FSEntry}
    (hf : fs f = some ef) (hg : fs g = some eg)
    (hsz : ef.stat.size ≠ eg.stat.size) :
    (∀ gs, find_duplicate_files fs l = Except.ok gs →
      ∀ grp ∈ gs, ¬(f ∈ grp ∧ g ∈ grp)) ∧
    (∀ gs, find_duplicate_files_by_comparing fs l = Except.ok gs →
      ∀ grp ∈ gs, ¬(f ∈ grp ∧ g ∈ grp)) := by
  constructor
  · intro gs h grp hgrp ⟨hfm, hgm⟩
    have hsf : getsize fs f = Except.ok ef.stat.size := by simp [getsize, hf]
    have hsg2 : getsize fs g = Except.ok eg.stat.size := by simp [getsize, hg]
    have h3 := fdf_same_size h hgrp hfm hgm
    rw [hsf, hsg2] at h3
    exact hsz (Except.ok.inj h3)
  · intro gs h grp hgrp ⟨hfm, hgm⟩
    obtain ⟨c, dups, rfl, hall⟩ :=
      (fdfbc_props l.length l gs (Nat.le_refl _) h).2.2.2 grp hgrp
    have key : ∀ x ex, fs x = some ex → x ∈ dups →
        ∃ ec, fs c = some ec ∧ ec.stat.size = ex.stat.size := by
      intro x ex hx hxd
      obtain ⟨ea, eb, hea, heb, hsz'⟩ := compare_files_true_same_size (hall x hxd)
      rw [hx] at heb
      cases heb
      exact ⟨ea, hea, hsz'⟩
    rcases List.mem_cons.mp hfm with rfl | hfd
    · rcases List.mem_cons.mp hgm with rfl | hgd
      · rw [hf] at hg
        cases hg
        exact hsz rfl
      · obtain ⟨ec, hec, hsz'⟩ := key g eg hg hgd
        rw [hf] at hec
        cases hec
        exact hsz hsz'
    · rcases List.mem_cons.mp hgm with rfl | hgd
      · obtain ⟨ec, hec, hsz'⟩ := key f ef hf hfd
        rw [hg] at hec
        cases hec
        exact hsz hsz'.symm
      · obtain ⟨ec, hec, hsz1⟩ := key f ef hf hfd
        obtain ⟨ec', hec', hsz2⟩ := key g eg hg hgd
        rw [hec] at hec'
        cases hec'
        exact hsz (hsz1 ▸ hsz2)

/-- C6 witness: the 1-byte file `a` and the 2-byte file `c`. -/
theorem C6_different_sizes_witness :
    oneByteEntry.stat.size ≠ twoByteEntry.stat.size ∧
    (∀ gs, find_duplicate_files fsTwoOnes ["a", "b", "c"] = Except.ok gs →
      ∀ grp ∈ gs, ¬("a" ∈ grp ∧ "c" ∈ grp)) ∧
    (∀ gs, find_duplicate_files_by_comparing fsTwoOnes ["a", "b", "c"] =
      Except.ok gs → ∀ grp ∈ gs, ¬("a" ∈ grp ∧ "c" ∈ grp)) := by
  have h := @C6_different_sizes_never_together fsTwoOnes ["a", "b", "c"]
    "a" "c" oneByteEntry twoByteEntry rfl rfl (by decide)
  exact ⟨by decide, h.1, h.2⟩

/-- C7: assuming the walked paths are distinct (true of a real directory
walk, where each entry is visited once), no reported path is a symbolic
link, and the contents of a symlinked directory are never even walked. -/
theorem C7_symlinks_never_scanned {root : String} {entries : List FSTree}
    (hnd : ((walkTree root entries).map Prod.fst).Nodup) :
    (∀ pr ∈ walkTree root entries, pr.2 = true →
      pr.1 ∉ scan_files root entries) ∧
    (∀ n cs rest, walkSubdirs root (FSTree.dir n true cs :: rest) =
      walkSubdirs root rest) := by
  constructor
  · intro pr hpr hlink hmem
    obtain ⟨qr, hqr, hq1, hq2⟩ := scan_files_mem hmem
    have heq : qr = pr := walk_entry_eq_of_fst_eq hnd hqr hpr hq1
    rw [heq] at hq2
    rw [hlink] at hq2
    cases hq2
  · intro n cs rest
    exact walkSubdirs_link_skipped root n cs rest

/-- C7 witness: a tree with two regular files, a file symlink and a
symlinked directory; the symlink never shows up in the scan. -/
theorem C7_symlinks_witness :
    scan_files "r" demoEntries = ["r/a", "r/b"] ∧
    "r/link" ∉ scan_files "r" demoEntries := by
  have hwalk : walkTree "r" demoEntries =
      [("r/a", false), ("r/b", false), ("r/link", true)] := by
    simp [walkTree, demoEntries, walkFilesHere, walkSubdirs, joinPath]
  refine ⟨?_, ?_⟩
  · simp [scan_files, hwalk]
  · exact (C7_symlinks_never_scanned (by rw [hwalk]; decide)).1
      ("r/link", true) (by rw [hwalk]; decide) rfl

/-- Concrete run of the comparison pipeline on `a`, `b` (identical) and `c`
(different size). -/
theorem fdfbc_fsTwoOnes_eval :
    find_duplicate_files_by_comparing fsTwoOnes ["a", "b", "c"] =
      Except.ok [["a", "b"]] := by
  simp [find_duplicate_files_by_comparing, collect_duplicates, compare_files,
    fsTwoOnes, do_compare, oneByteEntry, twoByteEntry,
    do_compare_chunks_eq_decide, Bind.bind, Except.bind, Functor.map,
    Except.map, Pure.pure, Except.pure]

/-- C8: every group emitted by `group_files` — and hence by
`group_files_by_size`, `group_files_by_checksum` and `find_duplicate_files`
— and every group emitted by `find_duplicate_files_by_comparing` has at
least 2 members. -/
theorem C8_min_cardinality :
    (∀ (α κ : Type) [DecidableEq κ] (l : List α) (func : α → Except Unit κ)
        (truthy : κ → Bool) (gs : List (List α)),
      group_files l func truthy = Except.ok gs → ∀ grp ∈ gs, 2 ≤ grp.length) ∧
    (∀ (fs : FS) (l : List String) (gs : List (List String)),
      group_files_by_size fs l = Except.ok gs → ∀ grp ∈ gs, 2 ≤ grp.length) ∧
    (∀ (fs : FS) (l : List String) (gs : List (List String)),
      group_files_by_checksum fs l = Except.ok gs → ∀ grp ∈ gs, 2 ≤ grp.length) ∧
    (∀ (fs : FS) (l : List String) (gs : List (List String)),
      find_duplicate_files fs l = Except.ok gs → ∀ grp ∈ gs, 2 ≤ grp.length) ∧
    (∀ (fs : FS) (l : List String) (gs : List (List String)),
      find_duplicate_files_by_comparing fs l = Except.ok gs →
        ∀ grp ∈ gs, 2 ≤ grp.length) := by
  have hgen : ∀ (α κ : Type) [DecidableEq κ] (l : List α)
      (func : α → Except Unit κ) (truthy : κ → Bool) (gs : List (List α)),
      group_files l func truthy = Except.ok gs → ∀ grp ∈ gs, 2 ≤ grp.length := by
    intro α κ _ l func truthy gs h grp hgrp
    have := group_files_length_ge_two h grp hgrp
    omega
  refine ⟨hgen, fun fs l gs h => hgen _ _ _ _ _ _ h,
    fun fs l gs h => hgen _ _ _ _ _ _ h, ?_, ?_⟩
  · intro fs l gs h grp hgrp
    obtain ⟨sgs, hsgs, hloop⟩ := fdf_step h
    obtain ⟨sg, _, sub, hsub, hgrp'⟩ := fdf_loop_forall hloop grp hgrp
    have := group_files_length_ge_two hsub grp hgrp'
    omega
  · intro fs l gs h grp hgrp
    have := (fdfbc_props l.length l gs (Nat.le_refl _) h).1 grp hgrp
    omega

/-- C8 witness: a concrete run whose one emitted group has 2 members. -/
theorem C8_min_cardinality_witness :
    find_duplicate_files_by_comparing fsTwoOnes ["a", "b", "c"] =
      Except.ok [["a", "b"]] ∧ 2 ≤ (["a", "b"] : List String).length :=
  ⟨fdfbc_fsTwoOnes_eval,
    C8_min_cardinality.2.2.2.2 fsTwoOnes ["a", "b", "c"] [["a", "b"]]
      fdfbc_fsTwoOnes_eval ["a", "b"] (by decide)⟩

/-- C9: `group_files` drops an item whenever its criterion is falsy, not
only when the key function returns no value: a zero file size (integer `0`)
excludes a path from size grouping exactly as a `None` checksum does. -/
theorem C9_falsy_criterion_excluded :
    (∀ (α κ : Type) [DecidableEq κ] (l : List α) (func : α → Except Unit κ)
        (truthy : κ → Bool) (gs : List (List α)) (x : α) (k : κ),
      group_files l func truthy = Except.ok gs → func x = Except.ok k →
      truthy k = false → ∀ grp ∈ gs, x ∉ grp) ∧
    (∀ (fs : FS) (l : List String) (p : String) (e : FSEntry)
        (gs : List (List String)),
      fs p = some e → e.stat.size = 0 →
      group_files_by_size fs l = Except.ok gs → ∀ grp ∈ gs, p ∉ grp) ∧
    (∀ (fs : FS) (l : List String) (p : String) (gs : List (List String)),
      get_file_checksum fs p = none →
      group_files_by_checksum fs l = Except.ok gs → ∀ grp ∈ gs, p ∉ grp) := by
  refine ⟨?_, ?_, ?_⟩
  · intro α κ _ l func truthy gs x k h hk ht
    exact falsy_key_excluded h hk ht
  · intro fs l p e gs hp hsz h
    exact falsy_key_excluded h (k := e.stat.size) (by simp [getsize, hp])
      (by simp [size_truthy, hsz])
  · intro fs l p gs hck h
    exact falsy_key_excluded h (k := (none : Option (List Nat)))
      (by simp [hck]) rfl

/-- C9 witness: with two zero-length files `e1`, `e2` and two identical
one-byte files `a`, `b`, size grouping returns only `[a, b]` and excludes
the zero-length `e1`. -/
theorem C9_falsy_criterion_witness :
    group_files_by_size fsMixed ["e1", "a", "e2", "b"] =
      Except.ok [["a", "b"]] ∧ "e1" ∉ (["a", "b"] : List String) := by
  have heval : group_files_by_size fsMixed ["e1", "a", "e2", "b"] =
      Except.ok [["a", "b"]] := rfl
  exact ⟨heval, C9_falsy_criterion_excluded.2.1 fsMixed ["e1", "a", "e2", "b"]
    "e1" emptyEntry [["a", "b"]] rfl rfl heval ["a", "b"] (by decide)⟩

/-- C10: the comparison pipeline's groups are pairwise disjoint — every
path appears in at most one emitted group, because each formed group
(pivot included) is removed from the working list before the next round. -/
theorem C10_comparison_groups_disjoint {fs : FS} {l : List String}
    {gs : List (List String)} (hnd : l.Nodup)
    (h : find_duplicate_files_by_comparing fs l = Except.ok gs) :
    gs.Pairwise (fun g1 g2 => ∀ x, x ∈ g1 → x ∉ g2) ∧
    ∀ x, gs.countP (fun grp => grp.contains x) ≤ 1 := by
  have hpw := (fdfbc_props l.length l gs (Nat.le_refl _) h).2.2.1
  exact ⟨hpw, fun x => countP_contains_le_one_of_pairwise hpw⟩

/-- C10 witness: a concrete distinct-path run. -/
theorem C10_comparison_disjoint_witness :
    (["a", "b", "c"] : List String).Nodup ∧
    List.Pairwise (fun g1 g2 => ∀ x, x ∈ g1 → x ∉ g2)
      ([["a", "b"]] : List (List String)) ∧
    ∀ x, ([["a", "b"]] : List (List String)).countP
      (fun grp => grp.contains x) ≤ 1 := by
  have h := C10_comparison_groups_disjoint (by decide) fdfbc_fsTwoOnes_eval
  exact ⟨by decide, h.1, h.2⟩

end DuplicateFilesFinder
